import Mathlib

/-!
# GameHub tic-tac-toe engine

A shallow embedding of `CasualGames/tic-tac-toe/script.js`: the nine-cell board, the
win detection (`checkWinner`), the move application (`makeMove`), the click and AI
handlers (`onCellClick`, `aiTurn`), the medium heuristic (`findWinningMove`) and the
exhaustive search (`minimax`), followed by the properties proved about them.

Conventions of the embedding:

* a cell is `Option Player`: `none` is the JavaScript `null`, `some p` is the string
  `'X'` or `'O'`;
* the session variables `board`, `current`, `running`, `scores` are the fields of `State`;
* the DOM calls (rendering, announcing, pop-ups, confetti) have no effect on those
  variables and are left out;
* `Math.random()` is an explicit argument, a fraction `num / den` in `[0, 1)`.
-/

namespace TicTacToe

/-! ## Data model -/

/-- The two marks. -/
inductive Player where
  | X
  | O
  deriving DecidableEq, Repr

/-- One cell of the board: `none` is `null`. -/
abbrev Cell := Option Player

/-- The board: the array `board`, nine cells in row-major order. -/
abbrev Board := List Cell

/-- The constant `HUMAN = 'X'`. -/
def HUMAN : Player := Player.X

/-- The constant `AI = 'O'`. -/
def AI : Player := Player.O

/-- The table `winningCombos`: three rows, three columns, two diagonals. -/
def winningCombos : List (Nat × Nat × Nat) :=
  [(0, 1, 2), (3, 4, 5), (6, 7, 8),
   (0, 3, 6), (1, 4, 7), (2, 5, 8),
   (0, 4, 8), (2, 4, 6)]

/-- The value `Array(9).fill(null)`. -/
def emptyBoard : Board := List.replicate 9 none

/-- The read `b[i]`; outside the array JavaScript yields `undefined`, which every use
below treats like `null` (both are falsy). -/
def cellAt (b : Board) (i : Nat) : Cell := b.getD i none

/-- The test of one line in `checkWinner`:
`b[a] && b[a] === b[bIdx] && b[a] === b[c]`, yielding `b[a]` when it holds. -/
def lineWinner (b : Board) (combo : Nat × Nat × Nat) : Option Player :=
  if (cellAt b combo.1).isSome && cellAt b combo.1 == cellAt b combo.2.1
      && cellAt b combo.1 == cellAt b combo.2.2 then
    cellAt b combo.1
  else
    none

/-- The function `checkWinner(b)`: the mark of the first complete line of
`winningCombos`, or `null`. -/
def checkWinner (b : Board) : Option Player :=
  winningCombos.findSome? (lineWinner b)

/-- The test `board.every(Boolean)`. -/
def boardFull (b : Board) : Bool := b.all Option.isSome

/-- The function `availableMoves(bd)`:
`bd.map((v,i)=>v===null?i:null).filter(v=>v!==null)`. -/
def availableMoves (bd : Board) : List Nat :=
  (bd.enum.map fun iv => if iv.2 = none then some iv.1 else none).filterMap id

/-- The derived status of a board. -/
inductive GameStatus where
  | InProgress
  | Won (p : Player)
  | Draw
  deriving DecidableEq, Repr

/-- The status computed at the end of `makeMove`: `checkWinner` first, then the
full-board test. -/
def evaluate (b : Board) : GameStatus :=
  match checkWinner b with
  | some w => GameStatus.Won w
  | none => if boardFull b then GameStatus.Draw else GameStatus.InProgress

/-! ## Session state and the handlers -/

/-- The session variables `board`, `current`, `running`, `scores.X`, `scores.O`. -/
structure State where
  board : Board
  current : Player
  running : Bool
  scoreX : Nat
  scoreO : Nat
  deriving DecidableEq, Repr

/-- The state at load time. -/
def initState : State :=
  { board := emptyBoard, current := Player.X, running := true, scoreX := 0, scoreO := 0 }

/-- The statement `scores[winner]++`. -/
def bumpScore (s : State) (winner : Player) : State :=
  match winner with
  | Player.X => { s with scoreX := s.scoreX + 1 }
  | Player.O => { s with scoreO := s.scoreO + 1 }

/-- The function `makeMove(idx, player)`. The index is the `data-index` of one of the
nine cells, so the write `board[idx] = player` stays inside the array. -/
def makeMove (s : State) (idx : Nat) (player : Player) : State :=
  let s1 : State := { s with board := s.board.set idx (some player) }
  match checkWinner s1.board with
  | some winner => bumpScore { s1 with running := false } winner
  | none =>
    if boardFull s1.board then
      { s1 with running := false }
    else
      { s1 with current := if s1.current = Player.X then Player.O else Player.X }

/-- The function `resetBoard(keepScore)`. -/
def resetBoard (keepScore : Bool) (s : State) : State :=
  let s1 : State := { s with board := emptyBoard, running := true, current := Player.X }
  if keepScore then s1 else { s1 with scoreX := 0, scoreO := 0 }

/-- The listener of the reset-scores button. -/
def resetScores (s : State) : State := { s with scoreX := 0, scoreO := 0 }

/-- The value of `getMode()`. -/
inductive Mode where
  | ai
  | twoPlayer
  deriving DecidableEq, Repr

/-- The function `onCellClick`. The second component tells whether the `setTimeout`
that runs the AI was scheduled. -/
def onCellClick (mode : Mode) (idx : Nat) (s : State) : State × Bool :=
  if !s.running || (cellAt s.board idx).isSome then (s, false)
  else
    match mode with
    | Mode.ai =>
      if s.current ≠ HUMAN then (s, false)
      else
        let s1 := makeMove s idx HUMAN
        (s1, s1.running)
    | Mode.twoPlayer => (makeMove s idx s.current, false)

/-- The function `findWinningMove(player)`, with the session board as an argument. -/
def findWinningMove (board : Board) (player : Player) : Option Nat :=
  (availableMoves board).find? fun i =>
    checkWinner (board.set i (some player)) == some player

/-- An object returned by `minimax`: `{score}` or `{index, score}`. -/
structure MoveResult where
  index : Option Nat
  score : Int
  deriving DecidableEq, Repr

/-- The comparison `m.score > bestScore`, where `none` is the initial `-Infinity`. -/
def aboveBest (score : Int) : Option Int → Bool
  | none => true
  | some bestScore => decide (score > bestScore)

/-- The comparison `m.score < bestScore`, where `none` is the initial `Infinity`. -/
def belowBest (score : Int) : Option Int → Bool
  | none => true
  | some bestScore => decide (score < bestScore)

/-- The selection loops of `minimax`: the pair is `(bestScore, bestMove)`, and a
`bestMove` of `none` is `undefined`. -/
def pickBest (player : Player) (moves : List MoveResult) : Option MoveResult :=
  (moves.foldl
    (fun (best : Option Int × Option MoveResult) m =>
      if player = AI then
        if aboveBest m.score best.1 then (some m.score, some m) else best
      else
        if belowBest m.score best.1 then (some m.score, some m) else best)
    (none, none)).2

/-- The body of `minimax(newBoard, player, depth)` with a recursion budget: `none` is
an exhausted budget or a thrown `TypeError` (reading `.score` of `undefined`). -/
def minimaxAux : Nat → Board → Player → Int → Option MoveResult
  | 0, _, _, _ => none
  | fuel + 1, newBoard, player, depth =>
    match checkWinner newBoard with
    | some Player.O => some { index := none, score := 10 - depth }
    | some Player.X => some { index := none, score := depth - 10 }
    | none =>
      if boardFull newBoard then some { index := none, score := 0 }
      else
        match (availableMoves newBoard).mapM (fun i =>
            (minimaxAux fuel (newBoard.set i (some player))
                (if player = AI then HUMAN else AI) (depth + 1)).map
              fun result => ({ index := some i, score := result.score } : MoveResult)) with
        | none => none
        | some moves => pickBest player moves

/-- The function `minimax(newBoard, player, depth)`. Every recursive call fills one
empty cell, so a budget of one more than the number of empty cells is never exhausted
(`minimaxAux_fuel`). -/
def minimax (newBoard : Board) (player : Player) (depth : Int) : Option MoveResult :=
  minimaxAux ((availableMoves newBoard).length + 1) newBoard player depth

/-- The value of `difficultySelect.value || 'medium'`: `aiTurn` tests it against
`'easy'` and `'medium'` and takes the `minimax` branch for anything else. -/
inductive Difficulty where
  | easy
  | medium
  | hard
  deriving DecidableEq, Repr

/-- One value of `Math.random()`: the fraction `num / den`, which lies in `[0, 1)`. The
product with the length and the floor are taken exactly. -/
structure Rand where
  num : Nat
  den : Nat
  lt : num < den

/-- The expression `avail[Math.floor(Math.random()*avail.length)]`. -/
def randomPick (r : Rand) (avail : List Nat) : Option Nat :=
  avail[r.num * avail.length / r.den]?

/-- The index `idx` that `aiTurn` computes before it calls `makeMove`; `none` is
`null` or `undefined`. -/
def chooseMove (diff : Difficulty) (r : Rand) (board : Board) : Option Nat :=
  let avail := availableMoves board
  match diff with
  | Difficulty.easy => randomPick r avail
  | Difficulty.medium =>
    (findWinningMove board AI).orElse fun _ =>
      (findWinningMove board HUMAN).orElse fun _ => randomPick r avail
  | Difficulty.hard => (minimax board AI 0).bind fun best => best.index

/-- The function `aiTurn()`. -/
def aiTurn (diff : Difficulty) (r : Rand) (s : State) : State :=
  if !s.running then s
  else
    match chooseMove diff r s.board with
    | some idx => makeMove s idx AI
    | none => s

/-- The callback of the timer set by `onCellClick`: `if(running) aiTurn()`. -/
def timerFires (diff : Difficulty) (r : Rand) (s : State) : State :=
  if s.running then aiTurn diff r s else s

/-! ## Auxiliary definitions used by the proofs -/

/-- The indices of the `null` cells of `bd`, numbered from `n`. -/
def availFrom (n : Nat) (bd : Board) : List Nat :=
  ((bd.enumFrom n).map fun iv => if iv.2 = none then some iv.1 else none).filterMap id

/-- All three cells of the line `combo` hold the mark `m`. -/
def lineHolds (b : Board) (combo : Nat × Nat × Nat) (m : Player) : Prop :=
  cellAt b combo.1 = some m ∧ cellAt b combo.2.1 = some m ∧ cellAt b combo.2.2 = some m

instance lineHoldsDecidable (b : Board) (combo : Nat × Nat × Nat) (m : Player) :
    Decidable (lineHolds b combo m) := by
  unfold lineHolds; infer_instance

/-- The indices of the occupied cells of `b`. -/
def occupiedCells (b : Board) : List Nat :=
  (List.range b.length).filter fun i => (cellAt b i).isSome

/-- The board of scenario C: one empty cell, at index 8, and no complete line. -/
def scenarioC : Board :=
  [some Player.X, some Player.O, some Player.X,
   some Player.O, some Player.X, some Player.O,
   some Player.O, some Player.X, none]

/-- A board on which both marks hold a complete line: row 0 for X and row 1 for O. -/
def twoLines : Board :=
  [some Player.X, some Player.X, some Player.X,
   some Player.O, some Player.O, some Player.O,
   none, none, none]

/-- The score of a result of `minimax`, `0` when there is none. -/
def scoreOf (r : Option MoveResult) : Int :=
  match r with
  | some m => m.score
  | none => 0

/-- The array `moves` that `minimax` builds from the scores `g` of the moves `l`. -/
def scoredMoves (g : Nat → Int) (l : List Nat) : List MoveResult :=
  l.map fun i => { index := some i, score := g i }

/-- The score that `minimax` gives to the move `j` of `player` on `b`: the score of the
recursive call on the board with the cell `j` marked. -/
def childScore (b : Board) (player : Player) (depth : Int) (j : Nat) : Int :=
  scoreOf (minimax (b.set j (some player)) (if player = AI then HUMAN else AI) (depth + 1))

/-- Marking the cell `i` completes a line for `p`: the cell lies on a line of
`winningCombos` whose two other cells hold `p`. -/
def completesLine (b : Board) (i : Nat) (p : Player) : Prop :=
  ∃ combo ∈ winningCombos,
    (i = combo.1 ∧ cellAt b combo.2.1 = some p ∧ cellAt b combo.2.2 = some p) ∨
    (i = combo.2.1 ∧ cellAt b combo.1 = some p ∧ cellAt b combo.2.2 = some p) ∨
    (i = combo.2.2 ∧ cellAt b combo.1 = some p ∧ cellAt b combo.2.1 = some p)

instance completesLineDecidable (b : Board) (i : Nat) (p : Player) :
    Decidable (completesLine b i p) := by
  unfold completesLine; infer_instance

/-- The board of scenario B as restated: X holds cells 0 and 1, the rest is empty. -/
def scenarioB : Board :=
  [some Player.X, some Player.X, none, none, none, none, none, none, none]

/-- A board on which O completes a line at index 0 and X would complete one at 5. -/
def winAtZero : Board :=
  [none, some Player.O, some Player.O, some Player.X, some Player.X, none, none, none, none]

/-- The user and timer events of a session. A cell index is the `data-index` of one of
the nine buttons made by `createBoard`. -/
inductive Event where
  | click (idx : Fin 9)
  | timer (diff : Difficulty) (r : Rand)
  | restart
  | setMode (mode : Mode)
  | resetScores

/-- A restart or a mode change: the events whose listener calls `resetBoard`. -/
def Event.isReset : Event → Bool
  | Event.restart => true
  | Event.setMode _ => true
  | _ => false

/-- A session: the state, the selected mode, and the number of timers set by
`onCellClick` that have not fired yet (the script never cancels a timer). -/
structure Session where
  state : State
  mode : Mode
  pending : Nat

/-- The effect of one event. A timer event with no timer pending is no event at all. -/
def Session.step (x : Session) : Event → Session
  | Event.click idx =>
    { x with
      state := (onCellClick x.mode idx.val x.state).1
      pending := if (onCellClick x.mode idx.val x.state).2 then x.pending + 1 else x.pending }
  | Event.timer diff r =>
    if x.pending = 0 then x
    else { x with state := timerFires diff r x.state, pending := x.pending - 1 }
  | Event.restart => { x with state := resetBoard true x.state }
  | Event.setMode mode => { x with mode := mode, state := resetBoard true x.state }
  | Event.resetScores => { x with state := resetScores x.state }

/-- The effect of a sequence of events. -/
def Session.run (events : List Event) (x : Session) : Session :=
  events.foldl Session.step x

/-- The session at load time with the single-player mode selected. -/
def initSession : Session := { state := initState, mode := Mode.ai, pending := 0 }

/-- The number of cells of `b` that hold the mark `p`. -/
def countMark (p : Player) (b : Board) : Nat := b.count (some p)

/-- A single-player session in which the human clicks cell 0 and then restarts before
the AI timer has fired. -/
def restartedSession : Session :=
  Session.run [Event.click 0, Event.restart] initSession

/-- The session `restartedSession` after its pending timer has fired, at the easy
difficulty with the draw `0`. -/
def staleTimerSession : Session :=
  restartedSession.step (Event.timer Difficulty.easy ⟨0, 1, by decide⟩)

/-- A running state on the board `[X,X,_, _,_,_, _,_,_]`, with X to move. -/
def beforeWin : State :=
  { board := scenarioB, current := Player.X, running := true, scoreX := 0, scoreO := 0 }

/-- Evaluates the cell `c` before passing it on; equal to `k c`. -/
def forceCell {α : Type} (c : Cell) (k : Cell → α) : α :=
  match c with
  | none => k none
  | some Player.X => k (some Player.X)
  | some Player.O => k (some Player.O)

/-- Evaluates every cell of the board before passing it on; equal to `k b`. -/
def forceBoard {α : Type} : Board → (Board → α) → α
  | [], k => k []
  | c :: cs, k => forceCell c fun c1 => forceBoard cs fun cs1 => k (c1 :: cs1)

/-- The nine indices, centre first, then corners, then edges. -/
def searchOrder : List Nat := [4, 0, 2, 6, 8, 1, 3, 5, 7]

/-- Whether the AI (O) can avoid defeat on the board `b` with `player` to move: the
board is not won by X and, unless it is won by O or full, some move of O, or every move
of X, leads to a board on which the AI can avoid defeat. The first argument bounds the
depth of the exploration. -/
def safe : Nat → Board → Player → Bool
  | 0, _, _ => false
  | n + 1, b0, player =>
    forceBoard b0 fun b =>
      match checkWinner b with
      | some Player.O => true
      | some Player.X => false
      | none =>
        boardFull b ||
          match player with
          | Player.O => searchOrder.any fun i =>
              (cellAt b i).isNone && safe n (b.set i (some Player.O)) Player.X
          | Player.X => searchOrder.all fun i =>
              (cellAt b i).isSome || safe n (b.set i (some Player.X)) Player.O

/-- The positions of a single-player game at the hard difficulty, with the player to
move: from the empty board the human (X) makes any legal move while the game is in
progress, and the AI (O) answers with the index returned by `minimax(board, AI, 0)`. -/
inductive HardPlay : Board → Player → Prop where
  | start : HardPlay emptyBoard HUMAN
  | human (b : Board) (i : Nat) : HardPlay b HUMAN →
      evaluate b = GameStatus.InProgress → i ∈ availableMoves b →
      HardPlay (b.set i (some HUMAN)) AI
  | ai (b : Board) (i : Nat) (res : MoveResult) : HardPlay b AI →
      evaluate b = GameStatus.InProgress → minimax b AI 0 = some res →
      res.index = some i → HardPlay (b.set i (some AI)) HUMAN

/-- The events of a single-player game at the hard difficulty: clicks, and timers that
run `aiTurn` with the difficulty `hard`. -/
def Event.isHardMove : Event → Bool
  | Event.click _ => true
  | Event.timer Difficulty.hard _ => true
  | _ => false

/-- The invariant of a single-player session at the hard difficulty: X has never won;
while the game runs the board is a position of `HardPlay` in progress with the player
`current` to move, and the AI timer is pending exactly when it is the turn of the AI. -/
def HardInv (x : Session) : Prop :=
  x.mode = Mode.ai ∧ x.state.scoreX = 0 ∧
    ((x.state.running = true ∧ evaluate x.state.board = GameStatus.InProgress ∧
        HardPlay x.state.board x.state.current ∧
        (x.state.current = HUMAN → x.pending = 0) ∧
        (x.state.current = AI → x.pending = 1)) ∨
      (x.state.running = false ∧ ∃ p, HardPlay x.state.board p))

/-! ## Facts about the board primitives -/

theorem availableMoves_eq_availFrom (bd : Board) : availableMoves bd = availFrom 0 bd := rfl

@[simp] theorem availFrom_nil (n : Nat) : availFrom n [] = [] := rfl

theorem availFrom_cons_none (n : Nat) (cs : Board) :
    availFrom n (none :: cs) = n :: availFrom (n + 1) cs := by
  simp [availFrom]

theorem availFrom_cons_some (n : Nat) (p : Player) (cs : Board) :
    availFrom n (some p :: cs) = availFrom (n + 1) cs := by
  simp [availFrom]

theorem mem_availFrom (bd : Board) : ∀ (n i : Nat),
    i ∈ availFrom n bd ↔ n ≤ i ∧ i - n < bd.length ∧ cellAt bd (i - n) = none := by
  induction bd with
  | nil => intro n i; simp
  | cons c cs ih =>
    intro n i
    cases c with
    | none =>
      rw [availFrom_cons_none, List.mem_cons, ih]
      constructor
      · rintro (h | ⟨h1, h2, h3⟩)
        · subst h; simp [cellAt]
        · refine ⟨by omega, by simp; omega, ?_⟩
          have : i - n = (i - (n + 1)) + 1 := by omega
          rw [this]; simpa [cellAt] using h3
      · rintro ⟨h1, h2, h3⟩
        by_cases h : i = n
        · exact Or.inl h
        · right
          have e : i - n = (i - (n + 1)) + 1 := by omega
          rw [e] at h2 h3
          exact ⟨by omega, by simpa using h2, by simpa [cellAt] using h3⟩
    | some p =>
      rw [availFrom_cons_some, ih]
      constructor
      · rintro ⟨h1, h2, h3⟩
        have e : i - n = (i - (n + 1)) + 1 := by omega
        rw [e]
        exact ⟨by omega, by simpa using h2, by simpa [cellAt] using h3⟩
      · rintro ⟨h1, h2, h3⟩
        by_cases h : i = n
        · subst h; simp [cellAt] at h3
        · have e : i - n = (i - (n + 1)) + 1 := by omega
          rw [e] at h2 h3
          exact ⟨by omega, by simpa using h2, by simpa [cellAt] using h3⟩

/-- Membership in `availableMoves`: the index is inside the board and its cell is `null`. -/
theorem mem_availableMoves (bd : Board) (i : Nat) :
    i ∈ availableMoves bd ↔ i < bd.length ∧ cellAt bd i = none := by
  rw [availableMoves_eq_availFrom, mem_availFrom]; simp

theorem availFrom_sorted (bd : Board) : ∀ n : Nat,
    (availFrom n bd).Pairwise (· < ·) ∧ ∀ i ∈ availFrom n bd, n ≤ i := by
  induction bd with
  | nil => intro n; simp
  | cons c cs ih =>
    intro n
    obtain ⟨h1, h2⟩ := ih (n + 1)
    cases c with
    | none =>
      rw [availFrom_cons_none]
      refine ⟨List.pairwise_cons.2 ⟨fun j hj => ?_, h1⟩, ?_⟩
      · have := h2 j hj; omega
      · intro i hi
        rcases List.mem_cons.1 hi with h | h
        · omega
        · have := h2 i h; omega
    | some p =>
      rw [availFrom_cons_some]
      exact ⟨h1, fun i hi => by have := h2 i hi; omega⟩

theorem availableMoves_sorted (bd : Board) : (availableMoves bd).Pairwise (· < ·) :=
  (availFrom_sorted bd 0).1

theorem availFrom_eq_nil (bd : Board) : ∀ n : Nat, availFrom n bd = [] ↔ boardFull bd = true := by
  induction bd with
  | nil => intro n; simp [boardFull]
  | cons c cs ih =>
    intro n
    cases c with
    | none => simp [availFrom_cons_none, boardFull]
    | some p =>
      rw [availFrom_cons_some, ih]
      simp [boardFull]

theorem availableMoves_eq_nil (bd : Board) : availableMoves bd = [] ↔ boardFull bd = true :=
  availFrom_eq_nil bd 0

theorem availFrom_length_set (bd : Board) : ∀ (n i : Nat) (p : Player),
    i < bd.length → cellAt bd i = none →
    (availFrom n (bd.set i (some p))).length + 1 = (availFrom n bd).length := by
  induction bd with
  | nil => intro n i p h; simp at h
  | cons c cs ih =>
    intro n i p hi hc
    cases i with
    | zero =>
      simp [cellAt] at hc
      subst hc
      simp [availFrom_cons_none, availFrom_cons_some]
    | succ i =>
      have hi1 : i < cs.length := by simpa using hi
      have hc1 : cellAt cs i = none := by simpa [cellAt] using hc
      cases c with
      | none => simp [availFrom_cons_none, ih (n + 1) i p hi1 hc1]
      | some q => simp [availFrom_cons_some, ih (n + 1) i p hi1 hc1]

/-- Filling an empty cell removes exactly one available move. -/
theorem availableMoves_length_set (bd : Board) (i : Nat) (p : Player)
    (hi : i ∈ availableMoves bd) :
    (availableMoves (bd.set i (some p))).length + 1 = (availableMoves bd).length := by
  obtain ⟨h1, h2⟩ := (mem_availableMoves bd i).1 hi
  exact availFrom_length_set bd 0 i p h1 h2

theorem availableMoves_length_le (bd : Board) : (availableMoves bd).length ≤ bd.length := by
  have : ∀ n, (availFrom n bd).length ≤ bd.length := by
    induction bd with
    | nil => intro n; simp
    | cons c cs ih =>
      intro n
      cases c with
      | none => simp [availFrom_cons_none, ih (n + 1)]
      | some p => simp [availFrom_cons_some]; exact Nat.le_succ_of_le (ih (n + 1))
  exact this 0

theorem cellAt_set (b : Board) (i j : Nat) (c : Cell) :
    cellAt (b.set i c) j = if i = j ∧ j < b.length then c else cellAt b j := by
  unfold cellAt
  simp only [List.getD_eq_getElem?_getD, List.getElem?_set]
  by_cases h : i = j
  · subst h
    by_cases h2 : i < b.length
    · simp [h2]
    · have hn : b[i]? = none := List.getElem?_eq_none (by omega)
      simp [h2, hn]
  · simp [h]

/-! ## Facts about `checkWinner` and `evaluate` -/

theorem lineWinner_eq_some (b : Board) (combo : Nat × Nat × Nat) (m : Player) :
    lineWinner b combo = some m ↔ lineHolds b combo m := by
  unfold lineWinner lineHolds
  constructor
  · intro h
    split at h
    · rename_i hc
      simp only [Bool.and_eq_true, beq_iff_eq] at hc
      obtain ⟨⟨_, h2⟩, h3⟩ := hc
      exact ⟨h, h2 ▸ h, h3 ▸ h⟩
    · exact absurd h (by simp)
  · rintro ⟨h1, h2, h3⟩
    simp [h1, h2, h3]

theorem lineWinner_eq_none (b : Board) (combo : Nat × Nat × Nat) :
    lineWinner b combo = none ↔ ∀ m, ¬ lineHolds b combo m := by
  constructor
  · intro h m hm
    rw [(lineWinner_eq_some b combo m).2 hm] at h
    exact absurd h (by simp)
  · intro h
    cases hl : lineWinner b combo with
    | none => rfl
    | some m => exact absurd ((lineWinner_eq_some b combo m).1 hl) (h m)

/-- The winner reported by `checkWinner` is the mark of the first complete line. -/
theorem checkWinner_eq_some (b : Board) (m : Player) :
    checkWinner b = some m ↔
      ∃ pre combo post, winningCombos = pre ++ combo :: post ∧ lineHolds b combo m ∧
        ∀ c ∈ pre, ∀ m1, ¬ lineHolds b c m1 := by
  unfold checkWinner
  rw [List.findSome?_eq_some_iff]
  constructor
  · rintro ⟨pre, combo, post, h1, h2, h3⟩
    exact ⟨pre, combo, post, h1, (lineWinner_eq_some b combo m).1 h2,
      fun c hc => (lineWinner_eq_none b c).1 (h3 c hc)⟩
  · rintro ⟨pre, combo, post, h1, h2, h3⟩
    exact ⟨pre, combo, post, h1, (lineWinner_eq_some b combo m).2 h2,
      fun c hc => (lineWinner_eq_none b c).2 (h3 c hc)⟩

theorem checkWinner_eq_none (b : Board) :
    checkWinner b = none ↔ ∀ combo ∈ winningCombos, ∀ m, ¬ lineHolds b combo m := by
  unfold checkWinner
  rw [List.findSome?_eq_none_iff]
  exact forall₂_congr fun c _ => lineWinner_eq_none b c

theorem checkWinner_line (b : Board) (m : Player) (h : checkWinner b = some m) :
    ∃ combo ∈ winningCombos, lineHolds b combo m := by
  obtain ⟨pre, combo, post, h1, h2, _⟩ := (checkWinner_eq_some b m).1 h
  exact ⟨combo, by rw [h1]; simp, h2⟩

theorem boardFull_iff (b : Board) :
    boardFull b = true ↔ ∀ i, i < b.length → cellAt b i ≠ none := by
  rw [← availableMoves_eq_nil, List.eq_nil_iff_forall_not_mem]
  constructor
  · intro h i hi hc
    exact h i ((mem_availableMoves b i).2 ⟨hi, hc⟩)
  · intro h i hi
    obtain ⟨h1, h2⟩ := (mem_availableMoves b i).1 hi
    exact h i h1 h2

theorem evaluate_won (b : Board) (m : Player) :
    evaluate b = GameStatus.Won m ↔ checkWinner b = some m := by
  unfold evaluate
  cases h : checkWinner b with
  | none => by_cases hf : boardFull b = true <;> simp [hf]
  | some w => simp

theorem evaluate_draw (b : Board) :
    evaluate b = GameStatus.Draw ↔ checkWinner b = none ∧ boardFull b = true := by
  unfold evaluate
  cases h : checkWinner b with
  | none => by_cases hf : boardFull b = true <;> simp [hf]
  | some w => simp

theorem evaluate_inProgress (b : Board) :
    evaluate b = GameStatus.InProgress ↔ checkWinner b = none ∧ boardFull b = false := by
  unfold evaluate
  cases h : checkWinner b with
  | none => by_cases hf : boardFull b = true <;> simp [hf]
  | some w => simp

/-! ## Facts about `minimax` -/

theorem mapM_option_eq_map {α β : Type} (f : α → Option β) (g : α → β) (l : List α)
    (h : ∀ x ∈ l, f x = some (g x)) : l.mapM f = some (l.map g) := by
  induction l with
  | nil => rfl
  | cons a l ih =>
    have h1 := h a (List.mem_cons_self a l)
    have h2 := ih fun x hx => h x (List.mem_cons_of_mem a hx)
    rw [List.mapM_cons, h1, h2]; rfl

/-- The maximising loop returns the first move of greatest score. -/
theorem pickBest_max (g : Nat → Int) (l : List Nat) (hne : l ≠ []) :
    ∃ pre i post, l = pre ++ i :: post ∧
      pickBest AI (scoredMoves g l) = some { index := some i, score := g i } ∧
      (∀ j ∈ pre, g j < g i) ∧ ∀ j ∈ post, g j ≤ g i := by
  have key : ∀ l : List Nat,
      (l = [] ∧ (scoredMoves g l).foldl
          (fun (best : Option Int × Option MoveResult) m =>
            if AI = AI then
              if aboveBest m.score best.1 then (some m.score, some m) else best
            else
              if belowBest m.score best.1 then (some m.score, some m) else best)
          (none, none) = (none, none)) ∨
      ∃ pre i post, l = pre ++ i :: post ∧
        (scoredMoves g l).foldl
          (fun (best : Option Int × Option MoveResult) m =>
            if AI = AI then
              if aboveBest m.score best.1 then (some m.score, some m) else best
            else
              if belowBest m.score best.1 then (some m.score, some m) else best)
          (none, none) = (some (g i), some { index := some i, score := g i }) ∧
        (∀ j ∈ pre, g j < g i) ∧ ∀ j ∈ post, g j ≤ g i := by
    intro l
    induction l using List.reverseRecOn with
    | nil => left; exact ⟨rfl, rfl⟩
    | append_singleton l x ih =>
      right
      simp only [scoredMoves, List.map_append, List.foldl_append, List.map_cons, List.map_nil,
        List.foldl_cons, List.foldl_nil, if_true] at ih ⊢
      rcases ih with ⟨rfl, h⟩ | ⟨pre, i, post, hl, hres, hpre, hpost⟩
      · rw [h]
        exact ⟨[], x, [], by simp, by simp [aboveBest], by simp, by simp⟩
      · rw [hres]
        by_cases hx : g x > g i
        · refine ⟨l, x, [], by simp, by simp [aboveBest, hx], ?_, by simp⟩
          intro j hj
          rw [hl] at hj
          rcases List.mem_append.1 hj with h1 | h1
          · have := hpre j h1; omega
          · rcases List.mem_cons.1 h1 with h2 | h2
            · subst h2; omega
            · have := hpost j h2; omega
        · refine ⟨pre, i, post ++ [x], by simp [hl], by simp [aboveBest, hx], hpre, ?_⟩
          intro j hj
          rcases List.mem_append.1 hj with h1 | h1
          · exact hpost j h1
          · simp at h1; subst h1; omega
  rcases key l with ⟨h, _⟩ | ⟨pre, i, post, hl, hres, hpre, hpost⟩
  · exact absurd h hne
  · exact ⟨pre, i, post, hl, by unfold pickBest; rw [hres], hpre, hpost⟩

/-- The minimising loop returns the first move of least score. -/
theorem pickBest_min (g : Nat → Int) (l : List Nat) (hne : l ≠ []) :
    ∃ pre i post, l = pre ++ i :: post ∧
      pickBest HUMAN (scoredMoves g l) = some { index := some i, score := g i } ∧
      (∀ j ∈ pre, g i < g j) ∧ ∀ j ∈ post, g i ≤ g j := by
  have key : ∀ l : List Nat,
      (l = [] ∧ (scoredMoves g l).foldl
          (fun (best : Option Int × Option MoveResult) m =>
            if HUMAN = AI then
              if aboveBest m.score best.1 then (some m.score, some m) else best
            else
              if belowBest m.score best.1 then (some m.score, some m) else best)
          (none, none) = (none, none)) ∨
      ∃ pre i post, l = pre ++ i :: post ∧
        (scoredMoves g l).foldl
          (fun (best : Option Int × Option MoveResult) m =>
            if HUMAN = AI then
              if aboveBest m.score best.1 then (some m.score, some m) else best
            else
              if belowBest m.score best.1 then (some m.score, some m) else best)
          (none, none) = (some (g i), some { index := some i, score := g i }) ∧
        (∀ j ∈ pre, g i < g j) ∧ ∀ j ∈ post, g i ≤ g j := by
    intro l
    have hne : ¬ (HUMAN = AI) := by decide
    induction l using List.reverseRecOn with
    | nil => left; exact ⟨rfl, rfl⟩
    | append_singleton l x ih =>
      right
      simp only [scoredMoves, List.map_append, List.foldl_append, List.map_cons, List.map_nil,
        List.foldl_cons, List.foldl_nil, if_neg hne] at ih ⊢
      rcases ih with ⟨rfl, h⟩ | ⟨pre, i, post, hl, hres, hpre, hpost⟩
      · rw [h]
        exact ⟨[], x, [], by simp, by simp [belowBest], by simp, by simp⟩
      · rw [hres]
        by_cases hx : g x < g i
        · refine ⟨l, x, [], by simp, by simp [belowBest, hx], ?_, by simp⟩
          intro j hj
          rw [hl] at hj
          rcases List.mem_append.1 hj with h1 | h1
          · have := hpre j h1; omega
          · rcases List.mem_cons.1 h1 with h2 | h2
            · subst h2; omega
            · have := hpost j h2; omega
        · refine ⟨pre, i, post ++ [x], by simp [hl], by simp [belowBest, hx], hpre, ?_⟩
          intro j hj
          rcases List.mem_append.1 hj with h1 | h1
          · exact hpost j h1
          · simp at h1; subst h1; omega
  rcases key l with ⟨h, _⟩ | ⟨pre, i, post, hl, hres, hpre, hpost⟩
  · exact absurd h hne
  · exact ⟨pre, i, post, hl, by unfold pickBest; rw [hres], hpre, hpost⟩

theorem pickBest_isSome (p : Player) (g : Nat → Int) (l : List Nat) (hne : l ≠ []) :
    ∃ r, pickBest p (scoredMoves g l) = some r := by
  cases p with
  | X =>
    obtain ⟨_, i, _, _, h, _⟩ := pickBest_min g l hne
    exact ⟨_, h⟩
  | O =>
    obtain ⟨_, i, _, _, h, _⟩ := pickBest_max g l hne
    exact ⟨_, h⟩

/-- One unfolding of `minimaxAux` on a board that is neither won nor full, when every
recursive call returns a result. -/
theorem minimaxAux_step (n : Nat) (b : Board) (p : Player) (d : Int)
    (hw : checkWinner b = none) (hf : boardFull b = false)
    (hall : ∀ i ∈ availableMoves b, ∃ r,
      minimaxAux n (b.set i (some p)) (if p = AI then HUMAN else AI) (d + 1) = some r) :
    minimaxAux (n + 1) b p d =
      pickBest p (scoredMoves
        (fun i => scoreOf (minimaxAux n (b.set i (some p))
          (if p = AI then HUMAN else AI) (d + 1)))
        (availableMoves b)) := by
  have hm := mapM_option_eq_map
    (fun i => (minimaxAux n (b.set i (some p)) (if p = AI then HUMAN else AI) (d + 1)).map
      fun result => ({ index := some i, score := result.score } : MoveResult))
    (fun i => ({ index := some i, score := scoreOf (minimaxAux n (b.set i (some p))
      (if p = AI then HUMAN else AI) (d + 1)) } : MoveResult))
    (availableMoves b)
    (by
      intro i hi
      obtain ⟨r, hr⟩ := hall i hi
      simp [hr, scoreOf])
  simp only [minimaxAux, hw, hf, Bool.false_eq_true, if_false]
  rw [hm]
  rfl

/-- With a budget above the number of empty cells, `minimaxAux` returns a result. -/
theorem minimaxAux_isSome : ∀ (n : Nat) (b : Board) (p : Player) (d : Int),
    (availableMoves b).length < n → ∃ r, minimaxAux n b p d = some r := by
  intro n
  induction n with
  | zero => intro b p d h; omega
  | succ n ih =>
    intro b p d h
    cases hw : checkWinner b with
    | some w =>
      cases w with
      | X => simp [minimaxAux, hw]
      | O => simp [minimaxAux, hw]
    | none =>
      by_cases hf : boardFull b = true
      · simp [minimaxAux, hw, hf]
      · have hf1 : boardFull b = false := by simpa using hf
        have hall : ∀ i ∈ availableMoves b, ∃ r,
            minimaxAux n (b.set i (some p)) (if p = AI then HUMAN else AI) (d + 1) = some r := by
          intro i hi
          apply ih
          have := availableMoves_length_set b i p hi
          omega
        rw [minimaxAux_step n b p d hw hf1 hall]
        apply pickBest_isSome
        intro he
        exact hf ((availableMoves_eq_nil b).1 he)

/-- The result of `minimaxAux` does not depend on the budget, once the budget is above
the number of empty cells. -/
theorem minimaxAux_fuel : ∀ (n m : Nat) (b : Board) (p : Player) (d : Int),
    (availableMoves b).length < n → (availableMoves b).length < m →
    minimaxAux n b p d = minimaxAux m b p d := by
  intro n
  induction n with
  | zero => intro m b p d h; omega
  | succ n ih =>
    intro m b p d hn hm
    cases m with
    | zero => omega
    | succ m =>
      cases hw : checkWinner b with
      | some w =>
        cases w with
        | X => simp [minimaxAux, hw]
        | O => simp [minimaxAux, hw]
      | none =>
        by_cases hf : boardFull b = true
        · simp [minimaxAux, hw, hf]
        · have hf1 : boardFull b = false := by simpa using hf
          have hlen : ∀ i ∈ availableMoves b,
              (availableMoves (b.set i (some p))).length + 1 = (availableMoves b).length :=
            fun i hi => availableMoves_length_set b i p hi
          rw [minimaxAux_step n b p d hw hf1 (fun i hi =>
              minimaxAux_isSome n _ _ _ (by have := hlen i hi; omega)),
            minimaxAux_step m b p d hw hf1 (fun i hi =>
              minimaxAux_isSome m _ _ _ (by have := hlen i hi; omega))]
          congr 1
          unfold scoredMoves
          apply List.map_congr_left
          intro i hi
          have := hlen i hi
          dsimp only
          rw [ih m (b.set i (some p)) _ _ (by omega) (by omega)]

theorem minimaxAux_eq_minimax (n : Nat) (b : Board) (p : Player) (d : Int)
    (h : (availableMoves b).length < n) : minimaxAux n b p d = minimax b p d :=
  minimaxAux_fuel n _ b p d h (Nat.lt_succ_self _)

theorem minimax_isSome (b : Board) (p : Player) (d : Int) : ∃ r, minimax b p d = some r :=
  minimaxAux_isSome _ b p d (Nat.lt_succ_self _)

/-- The recursion equation of `minimax` on a board that is neither won nor full. -/
theorem minimax_step (b : Board) (p : Player) (d : Int)
    (hw : checkWinner b = none) (hf : boardFull b = false) :
    minimax b p d =
      pickBest p (scoredMoves
        (fun i => scoreOf (minimax (b.set i (some p)) (if p = AI then HUMAN else AI) (d + 1)))
        (availableMoves b)) := by
  have hlen : ∀ i ∈ availableMoves b,
      (availableMoves (b.set i (some p))).length + 1 = (availableMoves b).length :=
    fun i hi => availableMoves_length_set b i p hi
  unfold minimax
  rw [minimaxAux_step _ b p d hw hf (fun i hi =>
    minimaxAux_isSome _ _ _ _ (by have := hlen i hi; omega))]
  congr 1
  unfold scoredMoves
  apply List.map_congr_left
  intro i hi
  have := hlen i hi
  dsimp only
  rw [minimaxAux_fuel _ ((availableMoves (b.set i (some p))).length + 1) (b.set i (some p)) _ _
    (by omega) (by omega)]

theorem minimax_won_ai (b : Board) (p : Player) (d : Int) (hw : checkWinner b = some AI) :
    minimax b p d = some { index := none, score := 10 - d } := by
  simp [minimax, minimaxAux, hw, AI] at *

theorem minimax_won_human (b : Board) (p : Player) (d : Int)
    (hw : checkWinner b = some HUMAN) :
    minimax b p d = some { index := none, score := d - 10 } := by
  simp [minimax, minimaxAux, hw, HUMAN] at *

theorem minimax_full (b : Board) (p : Player) (d : Int)
    (hw : checkWinner b = none) (hf : boardFull b = true) :
    minimax b p d = some { index := none, score := 0 } := by
  simp [minimax, minimaxAux, hw, hf]

/-! ## Facts about the move selection of `aiTurn` -/

theorem randomPick_mem (r : Rand) (avail : List Nat) (hne : avail ≠ []) :
    ∃ i, randomPick r avail = some i ∧ i ∈ avail := by
  have hpos : 0 < avail.length := List.length_pos.2 hne
  have hlt : r.num * avail.length / r.den < avail.length := by
    apply Nat.div_lt_of_lt_mul
    exact Nat.mul_lt_mul_of_pos_right r.lt hpos
  refine ⟨avail[r.num * avail.length / r.den], ?_, List.getElem_mem _⟩
  unfold randomPick
  exact List.getElem?_eq_getElem hlt

theorem winningCombos_distinct : ∀ combo ∈ winningCombos,
    combo.1 ≠ combo.2.1 ∧ combo.1 ≠ combo.2.2 ∧ combo.2.1 ≠ combo.2.2 := by
  decide

/-- On a board without a winner, marking an empty cell makes `checkWinner` report the
mover exactly when the cell completes a line for the mover. -/
theorem checkWinner_set_iff (b : Board) (i : Nat) (p : Player)
    (hw : checkWinner b = none) (hi : i < b.length) :
    checkWinner (b.set i (some p)) = some p ↔ completesLine b i p := by
  have hnone := (checkWinner_eq_none b).1 hw
  constructor
  · intro h
    obtain ⟨combo, hc, h1, h2, h3⟩ := checkWinner_line _ _ h
    obtain ⟨d1, d2, d3⟩ := winningCombos_distinct combo hc
    rw [cellAt_set] at h1 h2 h3
    refine ⟨combo, hc, ?_⟩
    by_cases e1 : i = combo.1
    · left
      have e2 : ¬ (i = combo.2.1 ∧ combo.2.1 < b.length) := fun e => d1 (e1 ▸ e.1)
      have e3 : ¬ (i = combo.2.2 ∧ combo.2.2 < b.length) := fun e => d2 (e1 ▸ e.1)
      rw [if_neg e2] at h2
      rw [if_neg e3] at h3
      exact ⟨e1, h2, h3⟩
    · have f1 : ¬ (i = combo.1 ∧ combo.1 < b.length) := fun e => e1 e.1
      rw [if_neg f1] at h1
      by_cases e2 : i = combo.2.1
      · right; left
        have e3 : ¬ (i = combo.2.2 ∧ combo.2.2 < b.length) := fun e => d3 (e2 ▸ e.1)
        rw [if_neg e3] at h3
        exact ⟨e2, h1, h3⟩
      · have f2 : ¬ (i = combo.2.1 ∧ combo.2.1 < b.length) := fun e => e2 e.1
        rw [if_neg f2] at h2
        by_cases e3 : i = combo.2.2
        · right; right
          exact ⟨e3, h1, h2⟩
        · have f3 : ¬ (i = combo.2.2 ∧ combo.2.2 < b.length) := fun e => e3 e.1
          rw [if_neg f3] at h3
          exact absurd ⟨h1, h2, h3⟩ (hnone combo hc p)
  · rintro ⟨combo, hc, hcase⟩
    have hline : lineHolds (b.set i (some p)) combo p := by
      unfold lineHolds
      simp only [cellAt_set]
      rcases hcase with ⟨e, h2, h3⟩ | ⟨e, h1, h3⟩ | ⟨e, h1, h2⟩
      · refine ⟨?_, ?_, ?_⟩
        · rw [if_pos ⟨e, e ▸ hi⟩]
        · split <;> simp [h2]
        · split <;> simp [h3]
      · refine ⟨?_, ?_, ?_⟩
        · split <;> simp [h1]
        · rw [if_pos ⟨e, e ▸ hi⟩]
        · split <;> simp [h3]
      · refine ⟨?_, ?_, ?_⟩
        · split <;> simp [h1]
        · split <;> simp [h2]
        · rw [if_pos ⟨e, e ▸ hi⟩]
    cases hq : checkWinner (b.set i (some p)) with
    | none => exact absurd hline ((checkWinner_eq_none _).1 hq combo hc p)
    | some q =>
      by_cases hqp : q = p
      · rw [hqp]
      · exfalso
        obtain ⟨c2, hc2, g1, g2, g3⟩ := checkWinner_line _ _ hq
        rw [cellAt_set] at g1 g2 g3
        have key : ∀ k, (if i = k ∧ k < b.length then some p else cellAt b k) = some q →
            cellAt b k = some q := by
          intro k hk
          split at hk
          · exact absurd (Option.some.inj hk).symm hqp
          · exact hk
        exact hnone c2 hc2 q ⟨key _ g1, key _ g2, key _ g3⟩

theorem find?_least (l : List Nat) (hs : l.Pairwise (· < ·)) (q : Nat → Bool) (i : Nat)
    (hi : i ∈ l) (hq : q i = true) (hleast : ∀ j ∈ l, q j = true → i ≤ j) :
    l.find? q = some i := by
  obtain ⟨as, bs, rfl⟩ := List.append_of_mem hi
  rw [List.find?_eq_some]
  refine ⟨hq, as, bs, rfl, ?_⟩
  intro a ha
  cases hqa : q a with
  | false => rfl
  | true =>
    exfalso
    have h1 := hleast a (List.mem_append_left _ ha) hqa
    have h2 := (List.pairwise_append.1 hs).2.2 a ha i (List.mem_cons_self _ _)
    omega

/-- The function `findWinningMove` returns the least available index that completes a
line for `player`. -/
theorem findWinningMove_least (b : Board) (p : Player) (i : Nat)
    (hw : checkWinner b = none) (hi : i ∈ availableMoves b) (hc : completesLine b i p)
    (hleast : ∀ j ∈ availableMoves b, completesLine b j p → i ≤ j) :
    findWinningMove b p = some i := by
  unfold findWinningMove
  apply find?_least _ (availableMoves_sorted b)
  · exact hi
  · have := (checkWinner_set_iff b i p hw ((mem_availableMoves b i).1 hi).1).2 hc
    simp [this]
  · intro j hj hq
    apply hleast j hj
    have hq1 : checkWinner (b.set j (some p)) = some p := by simpa using hq
    exact (checkWinner_set_iff b j p hw ((mem_availableMoves b j).1 hj).1).1 hq1

theorem findWinningMove_none (b : Board) (p : Player)
    (hw : checkWinner b = none) (hno : ∀ j ∈ availableMoves b, ¬ completesLine b j p) :
    findWinningMove b p = none := by
  unfold findWinningMove
  rw [List.find?_eq_none]
  intro j hj hq
  have hq1 : checkWinner (b.set j (some p)) = some p := by simpa using hq
  exact hno j hj ((checkWinner_set_iff b j p hw ((mem_availableMoves b j).1 hj).1).1 hq1)

theorem findWinningMove_mem (b : Board) (p : Player) (i : Nat)
    (h : findWinningMove b p = some i) : i ∈ availableMoves b :=
  List.mem_of_find?_eq_some h

/-- On a board that is neither won nor full, `minimax` returns an available index. -/
theorem minimax_index_mem (b : Board) (p : Player) (d : Int)
    (hw : checkWinner b = none) (hf : boardFull b = false) :
    ∃ i, i ∈ availableMoves b ∧
      minimax b p d = some { index := some i, score := childScore b p d i } := by
  have hne : availableMoves b ≠ [] := by
    intro he
    rw [(availableMoves_eq_nil b).1 he] at hf
    exact absurd hf (by simp)
  rw [minimax_step b p d hw hf]
  cases p with
  | X =>
    obtain ⟨pre, i, post, hl, h, _⟩ := pickBest_min
      (fun i => scoreOf (minimax (b.set i (some Player.X))
        (if Player.X = AI then HUMAN else AI) (d + 1))) (availableMoves b) hne
    exact ⟨i, by rw [hl]; simp, h⟩
  | O =>
    obtain ⟨pre, i, post, hl, h, _⟩ := pickBest_max
      (fun i => scoreOf (minimax (b.set i (some Player.O))
        (if Player.O = AI then HUMAN else AI) (d + 1))) (availableMoves b) hne
    exact ⟨i, by rw [hl]; simp, h⟩

/-! ## Facts about the handlers -/

theorem bumpScore_fields (s : State) (w : Player) :
    (bumpScore s w).board = s.board ∧ (bumpScore s w).running = s.running ∧
      (bumpScore s w).current = s.current := by
  cases w <;> exact ⟨rfl, rfl, rfl⟩

/-- The board after `makeMove`: the one write `board[idx] = player`. -/
theorem makeMove_board (s : State) (idx : Nat) (player : Player) :
    (makeMove s idx player).board = s.board.set idx (some player) := by
  unfold makeMove
  dsimp only
  split
  · exact (bumpScore_fields _ _).1
  · split <;> rfl

/-- After `makeMove` the flag `running` is cleared exactly when the new board is won or
full; otherwise it is left as it was. -/
theorem makeMove_running (s : State) (idx : Nat) (player : Player) :
    (makeMove s idx player).running =
      if evaluate (makeMove s idx player).board = GameStatus.InProgress then s.running
      else false := by
  rw [makeMove_board]
  unfold makeMove evaluate
  dsimp only
  cases hw : checkWinner (s.board.set idx (some player)) with
  | some w => simp [(bumpScore_fields _ w).2.1]
  | none =>
    by_cases hf : boardFull (s.board.set idx (some player)) = true
    · simp [hf]
    · simp [hf]

theorem onCellClick_not_running (mode : Mode) (idx : Nat) (s : State)
    (h : s.running = false) : onCellClick mode idx s = (s, false) := by
  simp [onCellClick, h]

theorem onCellClick_occupied (mode : Mode) (idx : Nat) (s : State)
    (h : (cellAt s.board idx).isSome = true) : onCellClick mode idx s = (s, false) := by
  simp [onCellClick, h]

theorem aiTurn_not_running (diff : Difficulty) (r : Rand) (s : State)
    (h : s.running = false) : aiTurn diff r s = s := by
  simp [aiTurn, h]

theorem timerFires_not_running (diff : Difficulty) (r : Rand) (s : State)
    (h : s.running = false) : timerFires diff r s = s := by
  simp [timerFires, h]

/-- A click either leaves the state as it was or marks the clicked cell, which was
empty, with the mark of the player to move. -/
theorem onCellClick_board (mode : Mode) (idx : Nat) (s : State) :
    onCellClick mode idx s = (s, false) ∨
      (s.running = true ∧ cellAt s.board idx = none ∧
        (onCellClick mode idx s).1 = makeMove s idx s.current) := by
  unfold onCellClick
  by_cases hr : s.running = true
  · cases hc : cellAt s.board idx with
    | some p => left; simp [hc]
    | none =>
      cases mode with
      | ai =>
        by_cases hcur : s.current = HUMAN
        · right
          refine ⟨hr, rfl, ?_⟩
          simp [hr, hc, hcur]
        · left; simp [hcur]
      | twoPlayer =>
        right
        exact ⟨hr, rfl, by simp [hr, hc]⟩
  · left; simp [hr]

/-- The function `aiTurn` either leaves the state as it was or marks an available cell
with the mark of the AI. -/
theorem aiTurn_board (diff : Difficulty) (r : Rand) (s : State) :
    aiTurn diff r s = s ∨
      ∃ i, i ∈ availableMoves s.board ∧ aiTurn diff r s = makeMove s i AI := by
  unfold aiTurn
  by_cases hr : s.running = true
  · cases hch : chooseMove diff r s.board with
    | none => left; simp
    | some i =>
      right
      refine ⟨i, ?_, by simp [hr]⟩
      cases diff with
      | easy =>
        exact List.getElem?_mem hch
      | medium =>
        unfold chooseMove at hch
        dsimp only at hch
        cases h1 : findWinningMove s.board AI with
        | some j =>
          rw [h1] at hch
          have : j = i := by simpa using hch
          exact this ▸ findWinningMove_mem _ _ _ h1
        | none =>
          rw [h1] at hch
          cases h2 : findWinningMove s.board HUMAN with
          | some j =>
            rw [h2] at hch
            have : j = i := by simpa using hch
            exact this ▸ findWinningMove_mem _ _ _ h2
          | none =>
            rw [h2] at hch
            exact List.getElem?_mem (by simpa [randomPick] using hch)
      | hard =>
        unfold chooseMove at hch
        dsimp only at hch
        obtain ⟨res, hres⟩ := minimax_isSome s.board AI 0
        rw [hres] at hch
        cases hw : checkWinner s.board with
        | some w =>
          cases w with
          | X => rw [minimax_won_human _ _ _ hw] at hres; cases hres; simp at hch
          | O => rw [minimax_won_ai _ _ _ hw] at hres; cases hres; simp at hch
        | none =>
          by_cases hf : boardFull s.board = true
          · rw [minimax_full _ _ _ hw hf] at hres; cases hres; simp at hch
          · obtain ⟨j, hj, hm⟩ := minimax_index_mem s.board AI 0 hw (by simpa using hf)
            rw [hm] at hres
            cases hres
            have : j = i := by simpa using hch
            exact this ▸ hj
  · left; simp [hr]

/-- A mark on the board survives the write of `makeMove` to an empty cell. -/
theorem cellAt_set_of_none (b : Board) (i k : Nat) (p m : Player)
    (hi : cellAt b i = none) (hk : cellAt b k = some m) :
    cellAt (b.set i (some p)) k = some m := by
  rw [cellAt_set]
  split
  · rename_i h
    rw [h.1, hk] at hi
    exact absurd hi (by simp)
  · exact hk

/-- No event other than a reset changes a cell that holds a mark. -/
theorem step_keeps_marks (x : Session) (e : Event) (he : e.isReset = false)
    (k : Nat) (m : Player) (hk : cellAt x.state.board k = some m) :
    cellAt (x.step e).state.board k = some m := by
  cases e with
  | click idx =>
    simp only [Session.step]
    rcases onCellClick_board x.mode idx.val x.state with h | ⟨_, h2, h3⟩
    · rw [h]; exact hk
    · rw [h3, makeMove_board]
      exact cellAt_set_of_none _ _ _ _ _ h2 hk
  | timer diff r =>
    simp only [Session.step]
    split
    · exact hk
    · simp only [timerFires]
      split
      · rcases aiTurn_board diff r x.state with h | ⟨i, h2, h3⟩
        · rw [h]; exact hk
        · rw [h3, makeMove_board]
          exact cellAt_set_of_none _ _ _ _ _ ((mem_availableMoves _ _).1 h2).2 hk
      · exact hk
  | restart => simp [Event.isReset] at he
  | setMode mode => simp [Event.isReset] at he
  | resetScores => exact hk

theorem run_keeps_marks (events : List Event) : ∀ (x : Session),
    (∀ e ∈ events, e.isReset = false) →
    ∀ (k : Nat) (m : Player), cellAt x.state.board k = some m →
      cellAt (Session.run events x).state.board k = some m := by
  induction events with
  | nil => intro x _ k m hk; exact hk
  | cons e es ih =>
    intro x he k m hk
    have h1 := step_keeps_marks x e (he e (List.mem_cons_self _ _)) k m hk
    exact ih (x.step e) (fun e1 h => he e1 (List.mem_cons_of_mem _ h)) k m h1

/-! ## The hard AI cannot be beaten -/

theorem forceCell_eq {α : Type} (c : Cell) (k : Cell → α) : forceCell c k = k c := by
  cases c with
  | none => rfl
  | some p => cases p <;> rfl

theorem forceBoard_eq {α : Type} (b : Board) : ∀ k : Board → α, forceBoard b k = k b := by
  induction b with
  | nil => intro k; rfl
  | cons c cs ih =>
    intro k
    simp only [forceBoard, forceCell_eq, ih]

theorem mem_searchOrder (i : Nat) : i ∈ searchOrder ↔ i < 9 := by
  simp only [searchOrder, List.mem_cons, List.mem_singleton, List.not_mem_nil, or_false]
  omega

theorem safe_succ (n : Nat) (b : Board) (player : Player) :
    safe (n + 1) b player =
      match checkWinner b with
      | some Player.O => true
      | some Player.X => false
      | none =>
        boardFull b ||
          match player with
          | Player.O => searchOrder.any fun i =>
              (cellAt b i).isNone && safe n (b.set i (some Player.O)) Player.X
          | Player.X => searchOrder.all fun i =>
              (cellAt b i).isSome || safe n (b.set i (some Player.X)) Player.O := by
  rw [safe, forceBoard_eq]

/-- On a nine-cell board that is neither won nor full, the AI to move is safe exactly
when one of its moves leads to a safe board. -/
theorem safe_ai_iff (n : Nat) (b : Board) (h9 : b.length = 9)
    (hw : checkWinner b = none) (hf : boardFull b = false) :
    safe (n + 1) b Player.O = true ↔
      ∃ i, i ∈ availableMoves b ∧ safe n (b.set i (some Player.O)) Player.X = true := by
  rw [safe_succ, hw, hf]
  simp only [Bool.false_or, List.any_eq_true, Bool.and_eq_true, Option.isNone_iff_eq_none]
  constructor
  · rintro ⟨i, hi, hc, hs⟩
    exact ⟨i, (mem_availableMoves b i).2 ⟨by rw [h9]; exact (mem_searchOrder i).1 hi, hc⟩, hs⟩
  · rintro ⟨i, hi, hs⟩
    obtain ⟨h1, h2⟩ := (mem_availableMoves b i).1 hi
    exact ⟨i, (mem_searchOrder i).2 (h9 ▸ h1), h2, hs⟩

/-- On a nine-cell board that is neither won nor full, the human to move leaves the AI
safe exactly when every human move leads to a safe board. -/
theorem safe_human_iff (n : Nat) (b : Board) (h9 : b.length = 9)
    (hw : checkWinner b = none) (hf : boardFull b = false) :
    safe (n + 1) b Player.X = true ↔
      ∀ i, i ∈ availableMoves b → safe n (b.set i (some Player.X)) Player.O = true := by
  rw [safe_succ, hw, hf]
  simp only [Bool.false_or, List.all_eq_true, Bool.or_eq_true]
  constructor
  · intro h i hi
    obtain ⟨h1, h2⟩ := (mem_availableMoves b i).1 hi
    rcases h i ((mem_searchOrder i).2 (h9 ▸ h1)) with h3 | h3
    · rw [h2] at h3; exact absurd h3 (by simp)
    · exact h3
  · intro h i hi
    cases hc : cellAt b i with
    | some p => left; rfl
    | none =>
      right
      exact h i ((mem_availableMoves b i).2 ⟨by rw [h9]; exact (mem_searchOrder i).1 hi, hc⟩)

theorem safe_not_lost (n : Nat) (b : Board) (player : Player)
    (h : safe n b player = true) : checkWinner b ≠ some Player.X := by
  cases n with
  | zero => simp [safe] at h
  | succ n =>
    intro hw
    rw [safe_succ, hw] at h
    exact absurd h (by simp)

/-- The sign of the score of `minimax`: with at most nine plies from the root of the
search to the end of the game, the score is non-negative exactly when the AI can avoid
defeat. -/
theorem score_nonneg_iff_safe : ∀ (n : Nat) (b : Board) (p : Player) (d : Int),
    b.length = 9 → (availableMoves b).length < n → 0 ≤ d →
    d + (availableMoves b).length ≤ 9 →
    (0 ≤ scoreOf (minimaxAux n b p d) ↔ safe n b p = true) := by
  intro n
  induction n with
  | zero => intro b p d _ h; omega
  | succ n ih =>
    intro b p d h9 hn hd0 hd9
    cases hw : checkWinner b with
    | some w =>
      cases w with
      | X =>
        rw [safe_succ, hw]
        simp only [minimaxAux, hw, scoreOf]
        constructor
        · intro h; omega
        · intro h; exact absurd h (by simp)
      | O =>
        rw [safe_succ, hw]
        simp only [minimaxAux, hw, scoreOf]
        constructor
        · intro _; trivial
        · intro _; omega
    | none =>
      by_cases hf : boardFull b = true
      · rw [safe_succ, hw, hf]
        simp [minimaxAux, hw, hf, scoreOf]
      · have hf1 : boardFull b = false := by simpa using hf
        have hne : availableMoves b ≠ [] := fun he => hf ((availableMoves_eq_nil b).1 he)
        have hlen : ∀ i ∈ availableMoves b,
            (availableMoves (b.set i (some p))).length + 1 = (availableMoves b).length :=
          fun i hi => availableMoves_length_set b i p hi
        have hchild : ∀ i ∈ availableMoves b,
            (0 ≤ scoreOf (minimaxAux n (b.set i (some p))
                (if p = AI then HUMAN else AI) (d + 1)) ↔
              safe n (b.set i (some p)) (if p = AI then HUMAN else AI) = true) := by
          intro i hi
          have := hlen i hi
          apply ih
          · rw [List.length_set]; exact h9
          · omega
          · omega
          · omega
        rw [minimaxAux_step n b p d hw hf1 (fun i hi =>
          minimaxAux_isSome n _ _ _ (by have := hlen i hi; omega))]
        cases p with
        | X =>
          obtain ⟨pre, i, post, hl, hres, hpre, hpost⟩ := pickBest_min
            (fun i => scoreOf (minimaxAux n (b.set i (some Player.X))
              (if Player.X = AI then HUMAN else AI) (d + 1))) (availableMoves b) hne
          have hres1 : pickBest Player.X _ = _ := hres
          rw [hres1, safe_human_iff n b h9 hw hf1]
          simp only [scoreOf]
          have hi : i ∈ availableMoves b := by rw [hl]; simp
          constructor
          · intro h0 j hj
            have hj1 := hj
            rw [hl] at hj1
            have hle : scoreOf (minimaxAux n (b.set i (some Player.X))
                (if Player.X = AI then HUMAN else AI) (d + 1)) ≤
                scoreOf (minimaxAux n (b.set j (some Player.X))
                (if Player.X = AI then HUMAN else AI) (d + 1)) := by
              rcases List.mem_append.1 hj1 with h1 | h1
              · exact le_of_lt (hpre j h1)
              · rcases List.mem_cons.1 h1 with h2 | h2
                · rw [h2]
                · exact hpost j h2
            exact (hchild j hj).1 (le_trans h0 hle)
          · intro h
            exact (hchild i hi).2 (h i hi)
        | O =>
          obtain ⟨pre, i, post, hl, hres, hpre, hpost⟩ := pickBest_max
            (fun i => scoreOf (minimaxAux n (b.set i (some Player.O))
              (if Player.O = AI then HUMAN else AI) (d + 1))) (availableMoves b) hne
          have hres1 : pickBest Player.O _ = _ := hres
          rw [hres1, safe_ai_iff n b h9 hw hf1]
          simp only [scoreOf]
          have hi : i ∈ availableMoves b := by rw [hl]; simp
          constructor
          · intro h0
            exact ⟨i, hi, (hchild i hi).1 h0⟩
          · rintro ⟨j, hj, hs⟩
            have hj1 := hj
            rw [hl] at hj1
            have hle : scoreOf (minimaxAux n (b.set j (some Player.O))
                (if Player.O = AI then HUMAN else AI) (d + 1)) ≤
                scoreOf (minimaxAux n (b.set i (some Player.O))
                (if Player.O = AI then HUMAN else AI) (d + 1)) := by
              rcases List.mem_append.1 hj1 with h1 | h1
              · exact le_of_lt (hpre j h1)
              · rcases List.mem_cons.1 h1 with h2 | h2
                · rw [h2]
                · exact hpost j h2
            exact le_trans ((hchild j hj).2 hs) hle

/-- The exploration of the whole game from the empty board: whatever X plays, O can
avoid defeat. -/
theorem safe_emptyBoard : safe 10 emptyBoard Player.X = true := by
  decide!

/-- Every position of a hard single-player game is a nine-cell board on which the AI
can avoid defeat. -/
theorem hardPlay_safe (b : Board) (p : Player) (h : HardPlay b p) :
    b.length = 9 ∧ ∃ n, (availableMoves b).length < n ∧ safe n b p = true := by
  induction h with
  | start => exact ⟨rfl, 10, by decide, safe_emptyBoard⟩
  | human b i _ hev hi ih =>
    obtain ⟨h9, n, hn, hs⟩ := ih
    obtain ⟨hw, hf⟩ := (evaluate_inProgress b).1 hev
    have hlen := availableMoves_length_set b i HUMAN hi
    cases n with
    | zero => omega
    | succ n =>
      refine ⟨by rw [List.length_set]; exact h9, n, by omega, ?_⟩
      exact (safe_human_iff n b h9 hw hf).1 hs i hi
  | ai b i res _ hev hres hidx ih =>
    obtain ⟨h9, n, hn, hs⟩ := ih
    obtain ⟨hw, hf⟩ := (evaluate_inProgress b).1 hev
    have hle := availableMoves_length_le b
    obtain ⟨j, hj, hm⟩ := minimax_index_mem b AI 0 hw hf
    rw [hm] at hres
    cases hres
    have hji : j = i := by simpa using hidx
    subst hji
    have hlen := availableMoves_length_set b j AI hj
    have h0 : 0 ≤ scoreOf (minimaxAux n b AI 0) :=
      (score_nonneg_iff_safe n b AI 0 h9 hn (le_refl 0) (by omega)).2 hs
    rw [minimaxAux_eq_minimax n b AI 0 hn, hm] at h0
    cases n with
    | zero => omega
    | succ n =>
      refine ⟨by rw [List.length_set]; exact h9, n, by omega, ?_⟩
      have h1 : 0 ≤ scoreOf (minimaxAux n (b.set j (some AI)) HUMAN (0 + 1)) := by
        rw [minimaxAux_eq_minimax n _ HUMAN (0 + 1) (by omega)]
        exact h0
      exact (score_nonneg_iff_safe n (b.set j (some AI)) HUMAN (0 + 1)
        (by rw [List.length_set]; exact h9) (by omega) (by omega) (by omega)).1 h1

/-! ## The hard AI in a session -/

/-- The state after a `makeMove` that leaves the game in progress. -/
theorem makeMove_inProgress (s : State) (idx : Nat) (player : Player)
    (h : evaluate (s.board.set idx (some player)) = GameStatus.InProgress) :
    makeMove s idx player =
      { s with
        board := s.board.set idx (some player)
        current := if s.current = Player.X then Player.O else Player.X } := by
  obtain ⟨hw, hf⟩ := (evaluate_inProgress _).1 h
  simp [makeMove, hw, hf]

/-- The score of X grows only when `checkWinner` reports X. -/
theorem makeMove_scoreX (s : State) (idx : Nat) (player : Player)
    (h : checkWinner (s.board.set idx (some player)) ≠ some Player.X) :
    (makeMove s idx player).scoreX = s.scoreX := by
  unfold makeMove
  dsimp only
  cases hw : checkWinner (s.board.set idx (some player)) with
  | some w =>
    cases w with
    | X => exact absurd hw h
    | O => rfl
  | none => dsimp only; split <;> rfl

theorem hardInv_init : HardInv initSession := by
  refine ⟨rfl, rfl, Or.inl ⟨rfl, by decide, HardPlay.start, fun _ => rfl, ?_⟩⟩
  intro h
  exact absurd h (by decide)

/-- A move made from a position of `HardPlay` in progress keeps `HardInv`, given the
position it leads to and the number of timers left pending. -/
theorem hardInv_move (x : Session) (idx : Nat) (player next : Player) (pend : Nat)
    (hmode : x.mode = Mode.ai) (hscore : x.state.scoreX = 0)
    (hrun : x.state.running = true) (hcur : x.state.current = player)
    (hnext : next = if player = Player.X then Player.O else Player.X)
    (hplay : HardPlay (x.state.board.set idx (some player)) next)
    (hpend : (evaluate (x.state.board.set idx (some player)) = GameStatus.InProgress →
      (next = HUMAN → pend = 0) ∧ (next = AI → pend = 1))) :
    HardInv { x with state := makeMove x.state idx player, pending := pend } := by
  have hnl : checkWinner (x.state.board.set idx (some player)) ≠ some Player.X :=
    (hardPlay_safe _ _ hplay).2.elim fun n hn => safe_not_lost n _ _ hn.2
  refine ⟨hmode, by rw [← hscore]; exact makeMove_scoreX _ _ _ hnl, ?_⟩
  by_cases hev : evaluate (x.state.board.set idx (some player)) = GameStatus.InProgress
  · left
    have hm := makeMove_inProgress x.state idx player hev
    obtain ⟨hp1, hp2⟩ := hpend hev
    dsimp only
    rw [hm]
    dsimp only
    rw [hcur, ← hnext]
    exact ⟨hrun, hev, hplay, hp1, hp2⟩
  · right
    dsimp only
    refine ⟨?_, next, ?_⟩
    · rw [makeMove_running, makeMove_board, if_neg hev]
    · rw [makeMove_board]; exact hplay

/-- Clicks and hard AI timers keep `HardInv`. -/
theorem hardInv_step (x : Session) (e : Event) (he : e.isHardMove = true)
    (hx : HardInv x) : HardInv (x.step e) := by
  obtain ⟨hmode, hscore, hcase⟩ := hx
  cases e with
  | click idx =>
    simp only [Session.step]
    rcases hcase with ⟨hrun, hev, hplay, hp1, hp2⟩ | ⟨hrun, hfin⟩
    · cases hc : cellAt x.state.board idx.val with
      | some q =>
        rw [onCellClick_occupied x.mode idx.val x.state (by rw [hc]; rfl)]
        exact ⟨hmode, hscore, Or.inl ⟨hrun, hev, hplay, hp1, hp2⟩⟩
      | none =>
        by_cases hcur : x.state.current = HUMAN
        · have h9 := (hardPlay_safe _ _ hplay).1
          have hmem : idx.val ∈ availableMoves x.state.board :=
            (mem_availableMoves _ _).2 ⟨by rw [h9]; exact idx.isLt, hc⟩
          have hclick : onCellClick x.mode idx.val x.state =
              (makeMove x.state idx.val HUMAN, (makeMove x.state idx.val HUMAN).running) := by
            simp [onCellClick, hrun, hc, hmode, hcur]
          rw [hclick]
          dsimp only
          have hplay1 : HardPlay (x.state.board.set idx.val (some HUMAN)) AI :=
            HardPlay.human _ _ (hcur ▸ hplay) hev hmem
          apply hardInv_move x idx.val HUMAN AI _ hmode hscore hrun hcur rfl hplay1
          intro hev1
          have hr1 : (makeMove x.state idx.val HUMAN).running = true := by
            rw [makeMove_running, makeMove_board, if_pos hev1]; exact hrun
          rw [hr1, hp1 hcur]
          exact ⟨fun h => absurd h (by decide), fun _ => rfl⟩
        · have hclick : onCellClick x.mode idx.val x.state = (x.state, false) := by
            simp [onCellClick, hrun, hc, hmode, hcur]
          rw [hclick]
          exact ⟨hmode, hscore, Or.inl ⟨hrun, hev, hplay, hp1, hp2⟩⟩
    · rw [onCellClick_not_running x.mode idx.val x.state hrun]
      exact ⟨hmode, hscore, Or.inr ⟨hrun, hfin⟩⟩
  | timer diff r =>
    cases diff with
    | easy => simp [Event.isHardMove] at he
    | medium => simp [Event.isHardMove] at he
    | hard =>
      simp only [Session.step]
      split
      · exact ⟨hmode, hscore, hcase⟩
      · rename_i hpos
        rcases hcase with ⟨hrun, hev, hplay, hp1, hp2⟩ | ⟨hrun, hfin⟩
        · have hcur : x.state.current = AI := by
            cases hc : x.state.current with
            | X => exact absurd (hp1 hc) hpos
            | O => rfl
          obtain ⟨hw, hf⟩ := (evaluate_inProgress _).1 hev
          obtain ⟨i, hi, hm⟩ := minimax_index_mem x.state.board AI 0 hw hf
          have hturn : timerFires Difficulty.hard r x.state = makeMove x.state i AI := by
            simp [timerFires, aiTurn, chooseMove, hrun, hm]
          rw [hturn]
          have hplay1 : HardPlay (x.state.board.set i (some AI)) HUMAN :=
            HardPlay.ai _ i _ (hcur ▸ hplay) hev hm rfl
          apply hardInv_move x i AI HUMAN _ hmode hscore hrun hcur rfl hplay1
          intro _
          rw [hp2 hcur]
          exact ⟨fun _ => rfl, fun h => absurd h (by decide)⟩
        · rw [timerFires_not_running _ r x.state hrun]
          exact ⟨hmode, hscore, Or.inr ⟨hrun, hfin⟩⟩
  | restart => simp [Event.isHardMove] at he
  | setMode mode => simp [Event.isHardMove] at he
  | resetScores => simp [Event.isHardMove] at he

theorem hardInv_run (events : List Event) : ∀ (x : Session),
    (∀ e ∈ events, e.isHardMove = true) → HardInv x → HardInv (Session.run events x) := by
  induction events with
  | nil => intro x _ hx; exact hx
  | cons e es ih =>
    intro x he hx
    exact ih (x.step e) (fun e1 h => he e1 (List.mem_cons_of_mem _ h))
      (hardInv_step x e (he e (List.mem_cons_self _ _)) hx)

/-- In a single-player session at the hard difficulty, whatever cells the human clicks
and whenever the AI timers fire, X never completes a line and its score stays 0. -/
theorem hard_session_never_lost (events : List Event)
    (he : ∀ e ∈ events, e.isHardMove = true) :
    checkWinner (Session.run events initSession).state.board ≠ some HUMAN ∧
      (Session.run events initSession).state.scoreX = 0 := by
  obtain ⟨_, hscore, hcase⟩ := hardInv_run events initSession he hardInv_init
  refine ⟨?_, hscore⟩
  rcases hcase with ⟨_, _, hplay, _⟩ | ⟨_, p, hplay⟩
  · exact (hardPlay_safe _ _ hplay).2.elim fun n hn => safe_not_lost n _ _ hn.2
  · exact (hardPlay_safe _ _ hplay).2.elim fun n hn => safe_not_lost n _ _ hn.2

/-! ## The status of a board (claims C2, C6) -/

/-- Claim C2, as stated, fails on the board `twoLines`: the line `(3, 4, 5)` holds O at
all three indices, yet `evaluate` returns `Won X`, the mark of the earlier line
`(0, 1, 2)`, and not `Won O`. -/
theorem evaluate_two_lines :
    (3, 4, 5) ∈ winningCombos ∧ lineHolds twoLines (3, 4, 5) Player.O ∧
      evaluate twoLines = GameStatus.Won Player.X ∧
      evaluate twoLines ≠ GameStatus.Won Player.O := by
  decide

/-- Claim C2, amended: on every nine-cell board `evaluate` returns `Won mark` exactly
when the first line of `winningCombos` whose three cells hold one same mark holds
`mark`; it returns `Draw` exactly when all nine cells are occupied and no line is
complete; and it returns `InProgress` exactly when no line is complete and some cell is
empty. -/
theorem evaluate_spec (b : Board) (h9 : b.length = 9) (mark : Player) :
    (evaluate b = GameStatus.Won mark ↔
      ∃ pre combo post, winningCombos = pre ++ combo :: post ∧ lineHolds b combo mark ∧
        ∀ c ∈ pre, ∀ m, ¬ lineHolds b c m) ∧
    (evaluate b = GameStatus.Draw ↔
      (∀ i, i < 9 → cellAt b i ≠ none) ∧
        ∀ combo ∈ winningCombos, ∀ m, ¬ lineHolds b combo m) ∧
    (evaluate b = GameStatus.InProgress ↔
      (∃ i, i < 9 ∧ cellAt b i = none) ∧
        ∀ combo ∈ winningCombos, ∀ m, ¬ lineHolds b combo m) := by
  refine ⟨?_, ?_, ?_⟩
  · rw [evaluate_won, checkWinner_eq_some]
  · rw [evaluate_draw, checkWinner_eq_none, boardFull_iff, h9]
    exact And.comm
  · rw [evaluate_inProgress, checkWinner_eq_none, ← Bool.not_eq_true, boardFull_iff, h9]
    constructor
    · rintro ⟨h1, h2⟩
      refine ⟨?_, h1⟩
      by_contra hc
      exact h2 fun i hi hn => hc ⟨i, hi, hn⟩
    · rintro ⟨⟨i, hi, hn⟩, h1⟩
      exact ⟨h1, fun h => h i hi hn⟩

/-- The amended claim C2 at the board `twoLines`, whose first complete line holds X. -/
theorem evaluate_spec_witness :
    twoLines.length = 9 ∧
    (evaluate twoLines = GameStatus.Won Player.X ↔
      ∃ pre combo post, winningCombos = pre ++ combo :: post ∧
        lineHolds twoLines combo Player.X ∧ ∀ c ∈ pre, ∀ m, ¬ lineHolds twoLines c m) :=
  ⟨by decide, (evaluate_spec twoLines (by decide) Player.X).1⟩

/-- Claim C6, as stated, fails: on the board of scenario C `evaluate` does not return
`Draw`. -/
theorem scenarioC_not_draw :
    availableMoves scenarioC = [8] ∧ checkWinner scenarioC = none ∧
      evaluate scenarioC ≠ GameStatus.Draw := by
  decide

/-- Claim C6, amended: on the board of scenario C, which has its one empty cell at
index 8 and no complete line, `evaluate` returns `InProgress`; the board is not full. -/
theorem scenarioC_in_progress :
    availableMoves scenarioC = [8] ∧ checkWinner scenarioC = none ∧
      boardFull scenarioC = false ∧ evaluate scenarioC = GameStatus.InProgress := by
  decide

/-! ## The legal moves (claim C9) -/

/-- Claim C9: `availableMoves` returns exactly the indices of the unoccupied cells, in
strictly ascending order and so each once; an index of the board is available exactly
when it is not occupied, so the two lists are disjoint and together make up the indices
of the board, `0..8` on a nine-cell board; and the result is empty exactly when the
board is full. -/
theorem availableMoves_spec (b : Board) :
    (∀ i, i ∈ availableMoves b ↔ i < b.length ∧ cellAt b i = none) ∧
    (availableMoves b).Pairwise (· < ·) ∧
    (availableMoves b).Nodup ∧
    (∀ i, ¬ (i ∈ availableMoves b ∧ i ∈ occupiedCells b)) ∧
    (∀ i, i < b.length ↔ i ∈ availableMoves b ∨ i ∈ occupiedCells b) ∧
    (b.length = 9 → ∀ i, i < 9 ↔ i ∈ availableMoves b ∨ i ∈ occupiedCells b) ∧
    (availableMoves b = [] ↔ boardFull b = true) := by
  have hocc : ∀ i, i ∈ occupiedCells b ↔ i < b.length ∧ (cellAt b i).isSome = true := by
    intro i; simp [occupiedCells]
  have hcover : ∀ i, i < b.length ↔ i ∈ availableMoves b ∨ i ∈ occupiedCells b := by
    intro i
    rw [mem_availableMoves, hocc]
    constructor
    · intro hi
      cases hc : cellAt b i with
      | none => exact Or.inl ⟨hi, rfl⟩
      | some p => exact Or.inr ⟨hi, rfl⟩
    · rintro (h | h) <;> exact h.1
  refine ⟨mem_availableMoves b, availableMoves_sorted b, ?_, ?_, hcover, ?_,
    availableMoves_eq_nil b⟩
  · exact (availableMoves_sorted b).imp (fun h => Nat.ne_of_lt h)
  · rintro i ⟨h1, h2⟩
    have h3 := ((mem_availableMoves b i).1 h1).2
    have h4 := ((hocc i).1 h2).2
    rw [h3] at h4
    exact absurd h4 (by simp)
  · intro h9 i
    rw [← h9]; exact hcover i

/-! ## The search (claim C7) -/

/-- Claim C7: `minimax` always returns a result; its score is `10 - depth` on a board
won by the AI, `depth - 10` on a board won by the opponent, `0` on a full board without
a winner; on any other board the score is the maximum (the AI to move) or the minimum
(the opponent to move) over the available moves of the score of the recursive call on
the board with that cell marked, for the other player at `depth + 1`, and the index is
the least available index that attains it. -/
theorem minimax_spec (b : Board) (player : Player) (depth : Int) :
    (∃ r, minimax b player depth = some r) ∧
    (checkWinner b = some AI →
      minimax b player depth = some { index := none, score := 10 - depth }) ∧
    (checkWinner b = some HUMAN →
      minimax b player depth = some { index := none, score := depth - 10 }) ∧
    (checkWinner b = none → boardFull b = true →
      minimax b player depth = some { index := none, score := 0 }) ∧
    (checkWinner b = none → boardFull b = false →
      ∃ i, i ∈ availableMoves b ∧
        minimax b player depth =
          some { index := some i, score := childScore b player depth i } ∧
        (∀ j ∈ availableMoves b,
          if player = AI then childScore b player depth j ≤ childScore b player depth i
          else childScore b player depth i ≤ childScore b player depth j) ∧
        ∀ j ∈ availableMoves b,
          childScore b player depth j = childScore b player depth i → i ≤ j) := by
  refine ⟨minimax_isSome b player depth, minimax_won_ai b player depth,
    minimax_won_human b player depth, minimax_full b player depth, ?_⟩
  intro hw hf
  have hne : availableMoves b ≠ [] := by
    intro he
    rw [(availableMoves_eq_nil b).1 he] at hf
    exact absurd hf (by simp)
  have hs := availableMoves_sorted b
  rw [minimax_step b player depth hw hf]
  cases player with
  | X =>
    obtain ⟨pre, i, post, hl, h, hpre, hpost⟩ := pickBest_min
      (fun i => scoreOf (minimax (b.set i (some Player.X))
        (if Player.X = AI then HUMAN else AI) (depth + 1))) (availableMoves b) hne
    have hord := (List.pairwise_append.1 (hl ▸ hs)).2.1
    refine ⟨i, by rw [hl]; simp, h, ?_, ?_⟩
    · intro j hj
      rw [if_neg (by decide)]
      rw [hl] at hj
      rcases List.mem_append.1 hj with h1 | h1
      · exact le_of_lt (hpre j h1)
      · rcases List.mem_cons.1 h1 with h2 | h2
        · rw [h2]
        · exact hpost j h2
    · intro j hj heq
      rw [hl] at hj
      rcases List.mem_append.1 hj with h1 | h1
      · have := hpre j h1
        unfold childScore at heq
        omega
      · rcases List.mem_cons.1 h1 with h2 | h2
        · omega
        · exact le_of_lt ((List.pairwise_cons.1 hord).1 j h2)
  | O =>
    obtain ⟨pre, i, post, hl, h, hpre, hpost⟩ := pickBest_max
      (fun i => scoreOf (minimax (b.set i (some Player.O))
        (if Player.O = AI then HUMAN else AI) (depth + 1))) (availableMoves b) hne
    have hord := (List.pairwise_append.1 (hl ▸ hs)).2.1
    refine ⟨i, by rw [hl]; simp, h, ?_, ?_⟩
    · intro j hj
      rw [if_pos (by decide)]
      rw [hl] at hj
      rcases List.mem_append.1 hj with h1 | h1
      · exact le_of_lt (hpre j h1)
      · rcases List.mem_cons.1 h1 with h2 | h2
        · rw [h2]
        · exact hpost j h2
    · intro j hj heq
      rw [hl] at hj
      rcases List.mem_append.1 hj with h1 | h1
      · have := hpre j h1
        unfold childScore at heq
        omega
      · rcases List.mem_cons.1 h1 with h2 | h2
        · omega
        · exact le_of_lt ((List.pairwise_cons.1 hord).1 j h2)

/-! ## Legality of the chosen move (claim C8) -/

/-- Claim C8: on a board with no winner and at least one empty cell, at every
difficulty and for every random draw, the index that `aiTurn` selects is defined and is
a member of `availableMoves`, so its cell is empty and a running `aiTurn` makes that
move; `minimax` returns a defined index there; and on the empty board the easy AI plays
one of the indices `0..8`. -/
theorem chooseMove_legal (b : Board) (diff : Difficulty) (r : Rand)
    (hw : checkWinner b = none) (he : availableMoves b ≠ []) :
    (∃ i, chooseMove diff r b = some i ∧ i ∈ availableMoves b ∧ cellAt b i = none) ∧
    (∃ i s, minimax b AI 0 = some { index := some i, score := s } ∧
      i ∈ availableMoves b) ∧
    (∀ s : State, s.board = b → s.running = true →
      ∃ i, i ∈ availableMoves b ∧ aiTurn diff r s = makeMove s i AI) ∧
    (∃ i, i < 9 ∧ chooseMove Difficulty.easy r emptyBoard = some i) := by
  have hf : boardFull b = false := by
    cases h : boardFull b with
    | false => rfl
    | true => exact absurd ((availableMoves_eq_nil b).2 h) he
  have hmm := minimax_index_mem b AI 0 hw hf
  have hchoose : ∃ i, chooseMove diff r b = some i ∧ i ∈ availableMoves b := by
    cases diff with
    | easy => exact randomPick_mem r _ he
    | medium =>
      unfold chooseMove
      cases h1 : findWinningMove b AI with
      | some i => exact ⟨i, by simp, findWinningMove_mem b AI i h1⟩
      | none =>
        cases h2 : findWinningMove b HUMAN with
        | some i => exact ⟨i, by simp, findWinningMove_mem b HUMAN i h2⟩
        | none =>
          obtain ⟨i, h3, h4⟩ := randomPick_mem r _ he
          exact ⟨i, by simp [h3], h4⟩
    | hard =>
      obtain ⟨i, h1, h2⟩ := hmm
      exact ⟨i, by simp [chooseMove, h2], h1⟩
  refine ⟨?_, ?_, ?_, ?_⟩
  · obtain ⟨i, h1, h2⟩ := hchoose
    exact ⟨i, h1, h2, ((mem_availableMoves b i).1 h2).2⟩
  · obtain ⟨i, h1, h2⟩ := hmm
    exact ⟨i, _, h2, h1⟩
  · intro s hb hr
    obtain ⟨i, h1, h2⟩ := hchoose
    refine ⟨i, h2, ?_⟩
    unfold aiTurn
    simp [hr, hb, h1]
  · obtain ⟨i, h1, h2⟩ := randomPick_mem r (availableMoves emptyBoard) (by decide)
    refine ⟨i, ?_, h1⟩
    have := ((mem_availableMoves emptyBoard i).1 h2).1
    simpa [emptyBoard] using this

/-- Claim C8 at the board of scenario B, the hard difficulty and the draw `1/2`. -/
theorem chooseMove_legal_witness :
    ∃ i, chooseMove Difficulty.hard ⟨1, 2, by decide⟩ scenarioB = some i ∧
      i ∈ availableMoves scenarioB ∧ cellAt scenarioB i = none :=
  (chooseMove_legal scenarioB Difficulty.hard ⟨1, 2, by decide⟩ (by decide) (by decide)).1

/-! ## The medium heuristic (claim C3) -/

/-- Claim C3: on a board with no winner and at least one empty cell the medium
`chooseMove` returns the least available index that completes a line for the AI, if
there is one (also when it is index 0, as on `winAtZero`); otherwise the least available
index that would complete a line for the opponent, if there is one; otherwise some
available index. On the board `[X,X,_, _,_,_, _,_,_]` it returns index 2. -/
theorem medium_spec (b : Board) (r : Rand)
    (hw : checkWinner b = none) (he : availableMoves b ≠ []) :
    (∀ i, i ∈ availableMoves b → completesLine b i AI →
      (∀ j ∈ availableMoves b, completesLine b j AI → i ≤ j) →
      chooseMove Difficulty.medium r b = some i) ∧
    ((∀ j ∈ availableMoves b, ¬ completesLine b j AI) →
      ∀ i, i ∈ availableMoves b → completesLine b i HUMAN →
        (∀ j ∈ availableMoves b, completesLine b j HUMAN → i ≤ j) →
        chooseMove Difficulty.medium r b = some i) ∧
    ((∀ j ∈ availableMoves b, ¬ completesLine b j AI) →
      (∀ j ∈ availableMoves b, ¬ completesLine b j HUMAN) →
      ∃ i, i ∈ availableMoves b ∧ chooseMove Difficulty.medium r b = some i) ∧
    chooseMove Difficulty.medium r scenarioB = some 2 ∧
    chooseMove Difficulty.medium r winAtZero = some 0 := by
  refine ⟨?_, ?_, ?_, rfl, rfl⟩
  · intro i hi hc hl
    simp [chooseMove, findWinningMove_least b AI i hw hi hc hl]
  · intro hno i hi hc hl
    simp [chooseMove, findWinningMove_none b AI hw hno,
      findWinningMove_least b HUMAN i hw hi hc hl]
  · intro hno1 hno2
    obtain ⟨i, h1, h2⟩ := randomPick_mem r _ he
    exact ⟨i, h2, by
      simp [chooseMove, findWinningMove_none b AI hw hno1,
        findWinningMove_none b HUMAN hw hno2, h1]⟩

/-- Claim C3 at the board of scenario B: no cell completes a line for O, cell 2 is the
least that completes one for X, and the medium AI plays it. -/
theorem medium_spec_witness :
    (∀ j ∈ availableMoves scenarioB, ¬ completesLine scenarioB j AI) ∧
    2 ∈ availableMoves scenarioB ∧ completesLine scenarioB 2 HUMAN ∧
    chooseMove Difficulty.medium ⟨0, 1, by decide⟩ scenarioB = some 2 :=
  ⟨by decide, by decide, by decide,
    (medium_spec scenarioB ⟨0, 1, by decide⟩ (by decide) (by decide)).2.1
      (by decide) 2 (by decide) (by decide) (by decide)⟩

/-! ## Terminal states (claim C4) -/

/-- Claim C4: once `makeMove` has produced a winner or filled the board, `running` is
false; every further click, on any index and in either mode, and every `aiTurn` or
timer, at any difficulty, leaves the whole state (board, player to move, `running`,
both scores) as it was; no event other than a reset sets `running` again; and
`resetBoard` yields a running state with an empty board, X to move. -/
theorem terminal_absorbing (s : State) (idx : Nat) (player : Player)
    (hterm : evaluate (makeMove s idx player).board ≠ GameStatus.InProgress) :
    (makeMove s idx player).running = false ∧
    (∀ mode j, onCellClick mode j (makeMove s idx player) = (makeMove s idx player, false)) ∧
    (∀ diff r, aiTurn diff r (makeMove s idx player) = makeMove s idx player ∧
      timerFires diff r (makeMove s idx player) = makeMove s idx player) ∧
    (∀ (x : Session) (e : Event), x.state = makeMove s idx player → e.isReset = false →
      (x.step e).state.running = false ∧ (x.step e).state.board = x.state.board ∧
        (x.step e).state.current = x.state.current) ∧
    (∀ keepScore, (resetBoard keepScore (makeMove s idx player)).running = true ∧
      (resetBoard keepScore (makeMove s idx player)).board = emptyBoard ∧
      (resetBoard keepScore (makeMove s idx player)).current = Player.X ∧
      evaluate (resetBoard keepScore (makeMove s idx player)).board =
        GameStatus.InProgress) := by
  have hrun : (makeMove s idx player).running = false := by
    rw [makeMove_running, if_neg hterm]
  refine ⟨hrun, fun mode j => onCellClick_not_running mode j _ hrun,
    fun diff r => ⟨aiTurn_not_running diff r _ hrun, timerFires_not_running diff r _ hrun⟩,
    ?_, ?_⟩
  · intro x e hx he
    have hxr : x.state.running = false := by rw [hx]; exact hrun
    cases e with
    | click j =>
      have h := onCellClick_not_running x.mode j.val x.state hxr
      refine ⟨?_, ?_, ?_⟩ <;> simp [Session.step, h, hxr]
    | timer diff r =>
      simp only [Session.step]
      split
      · exact ⟨hxr, rfl, rfl⟩
      · have h := timerFires_not_running diff r x.state hxr
        refine ⟨?_, ?_, ?_⟩ <;> simp [h, hxr]
    | restart => simp [Event.isReset] at he
    | setMode mode => simp [Event.isReset] at he
    | resetScores => exact ⟨hxr, rfl, rfl⟩
  · intro keepScore
    cases keepScore <;> exact ⟨rfl, rfl, rfl, rfl⟩

/-- Claim C4 at the move of X to cell 2 of `beforeWin`, which completes row 0: the
board is `[X,X,X, _,_,_, _,_,_]`, the status is `Won X`, and a further click is
rejected. -/
theorem terminal_absorbing_witness :
    (makeMove beforeWin 2 Player.X).board =
      [some Player.X, some Player.X, some Player.X, none, none, none, none, none, none] ∧
    evaluate (makeMove beforeWin 2 Player.X).board = GameStatus.Won Player.X ∧
    onCellClick Mode.twoPlayer 5 (makeMove beforeWin 2 Player.X) =
      (makeMove beforeWin 2 Player.X, false) :=
  ⟨by decide, by decide,
    (terminal_absorbing beforeWin 2 Player.X (by decide)).2.1 Mode.twoPlayer 5⟩

/-! ## One cell per move (claim C5) -/

/-- Claim C5: a click is either refused, leaving the state as it was, or marks the
clicked cell, which was empty, with the mark of the player to move; a click on an
occupied cell is refused, so a second move on the index just played is refused;
`aiTurn` either leaves the state as it was or marks one empty cell with the mark of
the AI; the write sets the targeted cell and leaves every other cell equal; hence over
any sequence of events without a reset, a cell that holds a mark keeps it. -/
theorem move_marks_one_empty_cell (s : State) (mode : Mode) (idx : Nat)
    (diff : Difficulty) (r : Rand) :
    (onCellClick mode idx s = (s, false) ∨
      (cellAt s.board idx = none ∧
        (onCellClick mode idx s).1.board = s.board.set idx (some s.current))) ∧
    ((cellAt s.board idx).isSome = true → onCellClick mode idx s = (s, false)) ∧
    (∀ player mode2, idx < s.board.length →
      onCellClick mode2 idx (makeMove s idx player) = (makeMove s idx player, false)) ∧
    (aiTurn diff r s = s ∨
      ∃ i, i < s.board.length ∧ cellAt s.board i = none ∧
        (aiTurn diff r s).board = s.board.set i (some AI)) ∧
    (∀ (b : Board) (i : Nat) (p : Player),
      (b.set i (some p)).length = b.length ∧
      (i < b.length → cellAt (b.set i (some p)) i = some p) ∧
      ∀ k, k ≠ i → cellAt (b.set i (some p)) k = cellAt b k) ∧
    (∀ (x : Session) (events : List Event), (∀ e ∈ events, e.isReset = false) →
      ∀ (k : Nat) (m : Player), cellAt x.state.board k = some m →
        cellAt (Session.run events x).state.board k = some m) := by
  refine ⟨?_, onCellClick_occupied mode idx s, ?_, ?_, ?_,
    fun x events he k m hk => run_keeps_marks events x he k m hk⟩
  · rcases onCellClick_board mode idx s with h | ⟨_, h2, h3⟩
    · exact Or.inl h
    · exact Or.inr ⟨h2, by rw [h3, makeMove_board]⟩
  · intro player mode2 hidx
    apply onCellClick_occupied
    rw [makeMove_board, cellAt_set, if_pos ⟨rfl, hidx⟩]
    rfl
  · rcases aiTurn_board diff r s with h | ⟨i, h2, h3⟩
    · exact Or.inl h
    · obtain ⟨h4, h5⟩ := (mem_availableMoves _ _).1 h2
      exact Or.inr ⟨i, h4, h5, by rw [h3, makeMove_board]⟩
  · intro b i p
    refine ⟨List.length_set _ _ _, fun hi => ?_, fun k hk => ?_⟩
    · rw [cellAt_set, if_pos ⟨rfl, hi⟩]
    · rw [cellAt_set, if_neg (fun h => hk h.1.symm)]

/-! ## Turn order and the AI timer (claim C10) -/

/-- Claim C10 fails in the session `staleTimerSession`: in single-player mode the human
clicks cell 0, which sets the AI timer, and restarts before it fires. The restart leaves
the timer pending on an empty running board with X to move; when the timer fires,
`aiTurn` places O although it is the turn of X, and hands the turn to O. The state is
running, O is to move, and the board holds no X and one O. -/
theorem stale_timer_moves_out_of_turn :
    restartedSession.pending = 1 ∧
    restartedSession.state.board = emptyBoard ∧
    restartedSession.state.current = Player.X ∧
    restartedSession.state.running = true ∧
    staleTimerSession.state.board =
      [some Player.O, none, none, none, none, none, none, none, none] ∧
    staleTimerSession.state.running = true ∧
    staleTimerSession.state.current = Player.O ∧
    countMark Player.X staleTimerSession.state.board = 0 ∧
    countMark Player.O staleTimerSession.state.board = 1 := by
  decide

/-! ## The hard difficulty (claim C1) -/

/-- Claim C1: on every board reached from the empty board by alternating any legal
move of the human (X, moving first) with the move `minimax(board, AI, 0).index` of the
hard AI (O), `checkWinner` does not return X, so the status is never `Won X`; a game
that has ended has ended in `Draw` or `Won O`; and whenever it is the turn of the AI in
a game in progress, `minimax` does return the index of an empty cell; every move fills
one of the nine cells, so the game is played to its end in at most nine moves. -/
theorem hard_ai_never_loses (b : Board) (p : Player) (h : HardPlay b p) :
    checkWinner b ≠ some HUMAN ∧
    evaluate b ≠ GameStatus.Won HUMAN ∧
    (evaluate b ≠ GameStatus.InProgress →
      evaluate b = GameStatus.Draw ∨ evaluate b = GameStatus.Won AI) ∧
    (p = AI → evaluate b = GameStatus.InProgress →
      ∃ i res, minimax b AI 0 = some res ∧ res.index = some i ∧
        i ∈ availableMoves b) ∧
    (b.length = 9 ∧ ∀ i ∈ availableMoves b, ∀ q,
      (availableMoves (b.set i (some q))).length + 1 = (availableMoves b).length) := by
  obtain ⟨h9, n, _, hs⟩ := hardPlay_safe b p h
  have hnl : checkWinner b ≠ some HUMAN := safe_not_lost n b p hs
  have hnw : evaluate b ≠ GameStatus.Won HUMAN := fun he => hnl ((evaluate_won b HUMAN).1 he)
  refine ⟨hnl, hnw, ?_, ?_, h9, fun i hi q => availableMoves_length_set b i q hi⟩
  · intro hne
    cases hev : evaluate b with
    | InProgress => exact absurd hev hne
    | Draw => exact Or.inl rfl
    | Won w =>
      cases w with
      | X => exact absurd hev hnw
      | O => exact Or.inr rfl
  · intro _ hev
    obtain ⟨hw, hf⟩ := (evaluate_inProgress b).1 hev
    obtain ⟨i, hi, hm⟩ := minimax_index_mem b AI 0 hw hf
    exact ⟨i, _, hm, rfl, hi⟩

/-- Claim C1 at the start of the game, the empty board with the human to move. -/
theorem hard_ai_never_loses_witness :
    HardPlay emptyBoard HUMAN ∧ checkWinner emptyBoard ≠ some HUMAN :=
  ⟨HardPlay.start, (hard_ai_never_loses emptyBoard HUMAN HardPlay.start).1⟩

end TicTacToe
